import Mathlib

/-
Shallow embedding of the ycsb workload-driver core (src/lib.rs,
src/generator/number.rs, src/workload.rs).

Machine integers (u64 / usize) are modelled as Nat; every arithmetic
operation of the source that can overflow or panic is modelled explicitly:
checked subtraction and checked addition return Option, array indexing out
of bounds and the exhausted prefix-scan panic are modelled as none.
Randomness is modelled by the stream of values produced by the key
chooser (one entry per call of next on the rng), and the external
rapid-hash function by an abstract function parameter.
-/

/- InsertOrder from src/lib.rs. -/
inductive InsertOrder where
  | Ordered
  | Hashed

/- RequestDistribution from src/lib.rs. -/
inductive RequestDistribution where
  | Latest
  | Uniform
  | Zipfian

/- Key::HASHED = 1 << 63 (src/lib.rs). -/
def Key.HASHED : Nat := 2 ^ 63

/- Key::new (src/lib.rs): Ordered keeps the sequence, Hashed sets bit 63.
A key is its 64-bit encoding, modelled as a Nat below 2^64. -/
def Key.new (order : InsertOrder) (sequence : Nat) : Nat :=
  match order with
  | .Ordered => sequence
  | .Hashed => sequence ||| Key.HASHED

/- Key::sequence (src/lib.rs): self.0 & !HASHED; the complement of bit 63
in a u64 is 2^63 - 1. -/
def Key.sequence (k : Nat) : Nat := k &&& (2 ^ 63 - 1)

/- Key::id (src/lib.rs): hash the sequence when bit 63 is set, else the
sequence itself. The external rapid_hash is the abstract parameter. -/
def Key.id (hash : Nat → Nat) (k : Nat) : Nat :=
  if 0 < k &&& Key.HASHED then hash (Key.sequence k) else Key.sequence k

theorem Key.sequence_eq_mod (k : Nat) : Key.sequence k = k % 2 ^ 63 := by
  have h := Nat.and_pow_two_sub_one_eq_mod k 63
  simpa [Key.sequence] using h

theorem Key.sequence_le (k : Nat) : Key.sequence k ≤ k := by
  rw [Key.sequence_eq_mod]
  exact Nat.mod_le k (2 ^ 63)

theorem Key.sequence_new_le (order : InsertOrder) (s : Nat) :
    Key.sequence (Key.new order s) ≤ s := by
  cases order with
  | Ordered => exact Key.sequence_le s
  | Hashed =>
    have hmask : (s ||| Key.HASHED) % 2 ^ 63 = s % 2 ^ 63 := by
      apply Nat.eq_of_testBit_eq
      intro i
      rcases Nat.lt_or_ge i 63 with hi | hi
      · simp only [Nat.testBit_mod_two_pow, Nat.testBit_or, Key.HASHED,
          Nat.testBit_two_pow]
        have : (63 = i) = False := by simp; omega
        simp [hi, this]
      · have h1 : (s ||| Key.HASHED) % 2 ^ 63 < 2 ^ i :=
          Nat.lt_of_lt_of_le (Nat.mod_lt _ (by positivity))
            (Nat.pow_le_pow_right (by omega) hi)
        have h2 : s % 2 ^ 63 < 2 ^ i :=
          Nat.lt_of_lt_of_le (Nat.mod_lt _ (by positivity))
            (Nat.pow_le_pow_right (by omega) hi)
        rw [Nat.testBit_lt_two_pow h1, Nat.testBit_lt_two_pow h2]
    rw [Key.sequence_eq_mod, Key.new, hmask]
    exact Nat.mod_le s (2 ^ 63)

/-- Claim C4: for every insert order, every hash function, and every
sequence below 2^63, Key::new followed by sequence() returns the sequence
unchanged, the hashed flag (bit 63) round-trips, id() returns
hash(sequence) exactly when the flag is set, and the two encodings of the
same sequence under the two orders are distinct values. -/
theorem C4_key_codec (order : InsertOrder) (hash : Nat → Nat) (seq : Nat)
    (h : seq < 2 ^ 63) :
    Key.sequence (Key.new order seq) = seq ∧
    Nat.testBit (Key.new .Hashed seq) 63 = true ∧
    Nat.testBit (Key.new .Ordered seq) 63 = false ∧
    Key.id hash (Key.new .Hashed seq) = hash seq ∧
    Key.id hash (Key.new .Ordered seq) = seq ∧
    Key.new .Hashed seq ≠ Key.new .Ordered seq := by
  have hseqO : Key.sequence (Key.new .Ordered seq) = seq := by
    rw [Key.sequence_eq_mod, Key.new, Nat.mod_eq_of_lt h]
  have hor : (seq ||| Key.HASHED) % 2 ^ 63 = seq := by
    apply Nat.eq_of_testBit_eq
    intro i
    rcases Nat.lt_or_ge i 63 with hi | hi
    · simp only [Nat.testBit_mod_two_pow, Nat.testBit_or, Key.HASHED,
        Nat.testBit_two_pow]
      have h63 : (63 = i) = False := by simp; omega
      simp [hi, h63]
    · have hmod : (seq ||| Key.HASHED) % 2 ^ 63 < 2 ^ i :=
        Nat.lt_of_lt_of_le (Nat.mod_lt _ (by positivity))
          (Nat.pow_le_pow_right (by omega) hi)
      rw [Nat.testBit_lt_two_pow hmod, Nat.testBit_lt_two_pow
        (Nat.lt_of_lt_of_le h (Nat.pow_le_pow_right (by omega) hi))]
  have hseqH : Key.sequence (Key.new .Hashed seq) = seq := by
    rw [Key.sequence_eq_mod, Key.new]
    exact hor
  have hbitH : Nat.testBit (Key.new .Hashed seq) 63 = true := by
    simp only [Key.new, Key.HASHED, Nat.testBit_or, Nat.testBit_two_pow_self,
      Bool.or_true]
  have hbitO : Nat.testBit (Key.new .Ordered seq) 63 = false := by
    simp only [Key.new]
    exact Nat.testBit_lt_two_pow h
  refine ⟨?_, hbitH, hbitO, ?_, ?_, ?_⟩
  · cases order with
    | Ordered => exact hseqO
    | Hashed => exact hseqH
  · have hbit : Nat.testBit (Key.new .Hashed seq &&& Key.HASHED) 63 = true := by
      rw [Nat.testBit_and, hbitH]
      simp only [Key.HASHED, Nat.testBit_two_pow_self, Bool.true_and]
    have hge := Nat.testBit_implies_ge hbit
    have hand : 0 < Key.new .Hashed seq &&& Key.HASHED := by
      have : (0 : Nat) < 2 ^ 63 := by positivity
      omega
    rw [Key.id, if_pos hand, hseqH]
  · have hzero : Key.new .Ordered seq &&& Key.HASHED = 0 := by
      apply Nat.eq_of_testBit_eq
      intro i
      rw [Nat.testBit_and]
      rcases eq_or_ne i 63 with rfl | hne
      · rw [hbitO]
        simp
      · have : Nat.testBit Key.HASHED i = false := by
          simp only [Key.HASHED]
          exact Nat.testBit_two_pow_of_ne (by omega : 63 ≠ i)
        rw [this]
        simp
    have hand : ¬ 0 < Key.new .Ordered seq &&& Key.HASHED := by omega
    rw [Key.id, if_neg hand, hseqO]
  · intro heq
    have hcontra := congrArg (fun n => Nat.testBit n 63) heq
    simp only at hcontra
    rw [hbitH, hbitO] at hcontra
    simp at hcontra

/-- Witness for C4 at order = Ordered, hash = identity, seq = 5. -/
theorem C4_key_codec_witness :
    (5 : Nat) < 2 ^ 63 ∧
    (Key.sequence (Key.new .Ordered 5) = 5 ∧
     Nat.testBit (Key.new .Hashed 5) 63 = true ∧
     Nat.testBit (Key.new .Ordered 5) 63 = false ∧
     Key.id (fun n => n) (Key.new .Hashed 5) = (fun n => n) 5 ∧
     Key.id (fun n => n) (Key.new .Ordered 5) = 5 ∧
     Key.new .Hashed 5 ≠ Key.new .Ordered 5) :=
  ⟨by decide, C4_key_codec .Ordered (fun n => n) 5 (by decide)⟩

/- Acknowledged (src/lib.rs): a hint plus a fixed array of 2^20 words of
64 bits each. The word array is modelled as a function from word index to
word value; every reachable state keeps each word below 2^64. -/
structure Acknowledged where
  hint : Nat
  inner : Nat → Nat

/- Acknowledged::new (src/lib.rs): hint 0, all words 0. -/
def Acknowledged.new : Acknowledged :=
  { hint := 0, inner := fun _ => 0 }

/- u64::trailing_ones by repeated inspection of the low bit; the fuel 64
caps the count at the word width, exactly as the instruction does on u64. -/
def trailingOnesAux : Nat → Nat → Nat
  | _, 0 => 0
  | w, fuel + 1 => if w % 2 = 1 then trailingOnesAux (w / 2) fuel + 1 else 0

def trailingOnes (w : Nat) : Nat := trailingOnesAux w 64

/- The scan inside Acknowledged::next (src/lib.rs): walk the word array
upward from index start, skip every all-ones word, stop at the first word
with a zero bit and report its index and that bit position. Running off
the end of the 2^20-word array is the "Full acknowledgement array" panic,
modelled as none; the fuel 2^20 always covers the remaining array. -/
def scanFrom (inner : Nat → Nat) : Nat → Nat → Option (Nat × Nat)
  | _, 0 => none
  | i, fuel + 1 =>
    if i < 2 ^ 20 then
      if trailingOnes (inner i) = 64 then scanFrom inner (i + 1) fuel
      else some (i, trailingOnes (inner i))
    else none

/- Acknowledged::next (src/lib.rs). -/
def Acknowledged.next (st : Acknowledged) : Option (Nat × Nat) :=
  scanFrom st.inner st.hint (2 ^ 20)

/- Acknowledged::max (src/lib.rs): i * 64 + j for the scan result (i, j). -/
def Acknowledged.max (st : Acknowledged) : Option Nat :=
  (Acknowledged.next st).map fun p => p.1 * 64 + p.2

/- The array access self.inner[(index / 64) as usize].fetch_or(1 << (index % 64))
in Acknowledged::acknowledge (src/lib.rs); an index at or past the 2^20
words panics (out-of-bounds), modelled as none. -/
def setBit (inner : Nat → Nat) (index : Nat) : Option (Nat → Nat) :=
  if index / 64 < 2 ^ 20 then
    some fun k => if k = index / 64 then inner k ||| 2 ^ (index % 64) else inner k
  else none

/- Acknowledged::acknowledge (src/lib.rs): set the bit, rescan from the
current hint over the updated words, then raise the hint via fetch_max. -/
def Acknowledged.acknowledge (st : Acknowledged) (index : Nat) :
    Option Acknowledged :=
  (setBit st.inner index).bind fun inner2 =>
    (scanFrom inner2 st.hint (2 ^ 20)).map fun p =>
      { hint := Nat.max st.hint p.1, inner := inner2 }

/- A whole history of acknowledge calls on a fresh tracker. -/
def runAcks (l : List Nat) : Option Acknowledged :=
  List.foldlM Acknowledged.acknowledge Acknowledged.new l

theorem trailingOnesAux_of_all (fuel : Nat) :
    ∀ w, (∀ j, j < fuel → Nat.testBit w j = true) →
    trailingOnesAux w fuel = fuel := by
  induction fuel with
  | zero => intro w _; rfl
  | succ n ih =>
    intro w h
    have h0 : w % 2 = 1 := by
      have := h 0 (Nat.succ_pos n)
      simpa using this
    rw [trailingOnesAux, if_pos h0, ih]
    intro j hj
    rw [Nat.testBit_div_two]
    exact h (j + 1) (by omega)

theorem trailingOnesAux_of_first_zero (fuel : Nat) :
    ∀ j0 w, j0 < fuel → (∀ j, j < j0 → Nat.testBit w j = true) →
    Nat.testBit w j0 = false → trailingOnesAux w fuel = j0 := by
  induction fuel with
  | zero => intro j0 w h; omega
  | succ n ih =>
    intro j0 w hlt hbelow hzero
    cases j0 with
    | zero =>
      have h0 : ¬ w % 2 = 1 := by
        intro hc
        simp [hc] at hzero
      rw [trailingOnesAux, if_neg h0]
    | succ j =>
      have h0 : w % 2 = 1 := by
        have := hbelow 0 (Nat.succ_pos j)
        simpa using this
      rw [trailingOnesAux, if_pos h0, ih j (w / 2) (by omega)]
      · intro i hi
        rw [Nat.testBit_div_two]
        exact hbelow (i + 1) (by omega)
      · rw [Nat.testBit_div_two]
        exact hzero

theorem scanFrom_some (inner : Nat → Nat) :
    ∀ fuel start i t, scanFrom inner start fuel = some (i, t) →
    start ≤ i ∧ i < 2 ^ 20 ∧ trailingOnes (inner i) = t ∧ t ≠ 64 := by
  intro fuel
  induction fuel with
  | zero => intro start i t h; simp [scanFrom] at h
  | succ n ih =>
    intro start i t h
    rw [scanFrom] at h
    by_cases hs : start < 2 ^ 20
    · rw [if_pos hs] at h
      by_cases hfull : trailingOnes (inner start) = 64
      · rw [if_pos hfull] at h
        have := ih (start + 1) i t h
        exact ⟨by omega, this.2⟩
      · rw [if_neg hfull] at h
        have h1 : start = i ∧ trailingOnes (inner start) = t := by
          have := Option.some.inj h
          exact ⟨congrArg Prod.fst this, congrArg Prod.snd this⟩
        refine ⟨by omega, by omega, ?_, ?_⟩
        · rw [← h1.1]; exact h1.2
        · rw [← h1.2]; exact hfull
    · rw [if_neg hs] at h
      exact absurd h (by simp)

theorem scanFrom_at (inner : Nat → Nat) (i fuel : Nat) (hi : i < 2 ^ 20)
    (hne : trailingOnes (inner i) ≠ 64) (hfuel : 0 < fuel) :
    scanFrom inner i fuel = some (i, trailingOnes (inner i)) := by
  cases fuel with
  | zero => omega
  | succ n => rw [scanFrom, if_pos hi, if_neg hne]

theorem scanFrom_finds (inner : Nat → Nat) (tgt : Nat) (htgt : tgt < 2 ^ 20)
    (hne : trailingOnes (inner tgt) ≠ 64)
    (hfull : ∀ m, m < tgt → trailingOnes (inner m) = 64) :
    ∀ fuel start, start ≤ tgt → tgt < start + fuel →
    scanFrom inner start fuel = some (tgt, trailingOnes (inner tgt)) := by
  intro fuel
  induction fuel with
  | zero => intro start h1 h2; omega
  | succ n ih =>
    intro start h1 h2
    have hs : start < 2 ^ 20 := by omega
    rcases Nat.eq_or_lt_of_le h1 with rfl | hlt
    · exact scanFrom_at inner start (n + 1) hs hne (by omega)
    · rw [scanFrom, if_pos hs, if_pos (hfull start hlt)]
      exact ih (start + 1) (by omega) (by omega)

/-- Claim C10: Acknowledged::acknowledge(index) is in bounds exactly for
index below 2^20 * 64 = 2^26: below the capacity the word access succeeds
and records the bit index % 64 of word index / 64, while at or above the
capacity the operation is an out-of-bounds panic (none) and records
nothing. -/
theorem C10_acknowledge_capacity (st : Acknowledged) (index : Nat) :
    (index < 2 ^ 26 →
      ∃ w, setBit st.inner index = some w ∧
        Nat.testBit (w (index / 64)) (index % 64) = true) ∧
    (2 ^ 26 ≤ index → Acknowledged.acknowledge st index = none) := by
  constructor
  · intro h
    have hdiv : index / 64 < 2 ^ 20 := by omega
    refine ⟨_, by rw [setBit, if_pos hdiv], ?_⟩
    simp [Nat.testBit_or, Nat.testBit_two_pow_self]
  · intro h
    have hdiv : ¬ index / 64 < 2 ^ 20 := by omega
    rw [Acknowledged.acknowledge, setBit, if_neg hdiv]
    rfl

/-- Witness for C10 at the fresh tracker with the in-capacity index 0 and
the out-of-capacity index 2^26. -/
theorem C10_acknowledge_capacity_witness :
    ((0 : Nat) < 2 ^ 26 ∧
      ∃ w, setBit Acknowledged.new.inner 0 = some w ∧
        Nat.testBit (w (0 / 64)) (0 % 64) = true) ∧
    (2 ^ 26 ≤ 2 ^ 26 ∧
      Acknowledged.acknowledge Acknowledged.new (2 ^ 26) = none) :=
  ⟨⟨by decide, (C10_acknowledge_capacity Acknowledged.new 0).1 (by decide)⟩,
   ⟨Nat.le_refl _,
    (C10_acknowledge_capacity Acknowledged.new (2 ^ 26)).2 (Nat.le_refl _)⟩⟩

/-- Claim C8: Acknowledged::acknowledge is idempotent: whenever a call
acknowledge(i) succeeds and yields a state, running acknowledge(i) again
from that state succeeds and yields exactly the same state (same word
array and same hint). -/
theorem C8_acknowledge_idempotent (st : Acknowledged) (x : Nat)
    (h : (Acknowledged.acknowledge st x).isSome = true) :
    (Acknowledged.acknowledge st x).bind
      (fun st2 => Acknowledged.acknowledge st2 x) =
    Acknowledged.acknowledge st x := by
  rcases Option.isSome_iff_exists.mp h with ⟨st1, heq⟩
  rw [heq, Option.some_bind]
  by_cases hb : x / 64 < 2 ^ 20
  · have hsb : setBit st.inner x =
        some fun k => if k = x / 64 then st.inner k ||| 2 ^ (x % 64)
          else st.inner k := by
      rw [setBit, if_pos hb]
    set w : Nat → Nat := fun k =>
      if k = x / 64 then st.inner k ||| 2 ^ (x % 64) else st.inner k with hw
    rw [Acknowledged.acknowledge, hsb, Option.some_bind] at heq
    rcases Option.map_eq_some'.mp heq with ⟨p, hscan, hp⟩
    · have hst1 : st1 = { hint := Nat.max st.hint p.1, inner := w } := hp.symm
      obtain ⟨hle, hlt, htrail, hne⟩ :=
        scanFrom_some w (2 ^ 20) st.hint p.1 p.2
          (by rw [hscan])
      have hsb2 : setBit st1.inner x = some st1.inner := by
        rw [hst1]
        simp only [setBit, if_pos hb]
        congr 1
        funext k
        by_cases hk : k = x / 64
        · simp only [hw, if_pos hk, Nat.or_assoc, Nat.or_self]
        · simp only [hw, if_neg hk]
      have hhint : Nat.max st.hint p.1 = p.1 := Nat.max_eq_right hle
      have hscan2 : scanFrom st1.inner st1.hint (2 ^ 20) =
          some (p.1, p.2) := by
        rw [hst1]
        simp only [hhint]
        rw [← htrail]
        exact scanFrom_at w p.1 (2 ^ 20) hlt (by rw [htrail]; exact hne)
          (by positivity)
      rw [Acknowledged.acknowledge, hsb2, Option.some_bind, hscan2]
      simp only [Option.map_some']
      congr 1
      rw [hst1]
      simp [hhint]
  · exfalso
    rw [Acknowledged.acknowledge, setBit, if_neg hb] at heq
    simp at heq

/-- Witness for C8: acknowledging index 0 on the fresh tracker succeeds,
and acknowledging it a second time changes nothing. -/
theorem C8_acknowledge_idempotent_witness :
    (Acknowledged.acknowledge Acknowledged.new 0).isSome = true ∧
    (Acknowledged.acknowledge Acknowledged.new 0).bind
      (fun st2 => Acknowledged.acknowledge st2 0) =
    Acknowledged.acknowledge Acknowledged.new 0 :=
  ⟨by decide, C8_acknowledge_idempotent Acknowledged.new 0 (by decide)⟩

/- u64::checked_sub (used by Runner::acknowledge and next_key_inner). -/
def checkedSub (a b : Nat) : Option Nat :=
  if a < b then none else some (a - b)

/- Runner::acknowledge (src/lib.rs): forward sequence - record_count to
the tracker when the checked subtraction succeeds, otherwise return with
the tracker untouched. -/
def Runner.acknowledge (record_count : Nat) (st : Acknowledged)
    (key : Nat) : Option Acknowledged :=
  match checkedSub (Key.sequence key) record_count with
  | none => some st
  | some index => Acknowledged.acknowledge st index

/-- Claim C7: Runner::acknowledge(key) forwards
Acknowledged::acknowledge(sequence - record_count) exactly when the key's
sequence is at least record_count; for a pre-loaded key (sequence below
record_count) it leaves the tracker state completely unchanged and never
forwards. -/
theorem C7_runner_acknowledge_frame (record_count : Nat)
    (st : Acknowledged) (key : Nat) :
    (Key.sequence key < record_count →
      Runner.acknowledge record_count st key = some st) ∧
    (record_count ≤ Key.sequence key →
      Runner.acknowledge record_count st key =
        Acknowledged.acknowledge st (Key.sequence key - record_count)) := by
  constructor
  · intro h
    rw [Runner.acknowledge, checkedSub, if_pos h]
  · intro h
    rw [Runner.acknowledge, checkedSub, if_neg (by omega)]

/-- Witness for C7: with record_count 3, the pre-loaded key 1 leaves the
fresh tracker unchanged, and the key of sequence 5 forwards index 2. -/
theorem C7_runner_acknowledge_frame_witness :
    (Key.sequence 1 < 3 ∧
      Runner.acknowledge 3 Acknowledged.new 1 = some Acknowledged.new) ∧
    (3 ≤ Key.sequence 5 ∧
      Runner.acknowledge 3 Acknowledged.new 5 =
        Acknowledged.acknowledge Acknowledged.new (Key.sequence 5 - 3)) :=
  ⟨⟨by decide,
    (C7_runner_acknowledge_frame 3 Acknowledged.new 1).1 (by decide)⟩,
   ⟨by decide,
    (C7_runner_acknowledge_frame 3 Acknowledged.new 5).2 (by decide)⟩⟩

/- The state invariant tying an Acknowledged value to the set S of indices
acknowledged so far: words stay below 2^64, bit j of word i is set exactly
when index 64 i + j is in S, and every index below the hint word is in S
(the hint never over-advances). -/
def AckInv (S : Set Nat) (st : Acknowledged) : Prop :=
  (∀ i, st.inner i < 2 ^ 64) ∧
  (∀ i j, j < 64 → (Nat.testBit (st.inner i) j = true ↔ 64 * i + j ∈ S)) ∧
  (∀ k, k < 64 * st.hint → k ∈ S)

theorem AckInv_new : AckInv ∅ Acknowledged.new := by
  refine ⟨fun i => by positivity, fun i j hj => ?_, fun k hk => by
    simp [Acknowledged.new] at hk⟩
  simp [Acknowledged.new]

theorem AckInv_congr (S T : Set Nat) (st : Acknowledged)
    (h : ∀ k, k ∈ S ↔ k ∈ T) (hInv : AckInv S st) : AckInv T st := by
  obtain ⟨h1, h2, h3⟩ := hInv
  exact ⟨h1, fun i j hj => (h2 i j hj).trans (h (64 * i + j)),
    fun k hk => (h k).mp (h3 k hk)⟩

theorem exists_least_gap (S : Set Nat) (g : Nat) (hg : g < 2 ^ 26)
    (hgS : g ∉ S) :
    ∃ M, M < 2 ^ 26 ∧ (∀ k, k < M → k ∈ S) ∧ M ∉ S := by
  classical
  have hex : ∃ n, n ∉ S := ⟨g, hgS⟩
  refine ⟨Nat.find hex, ?_, fun k hk => ?_, Nat.find_spec hex⟩
  · have := Nat.find_min' hex hgS
    omega
  · by_contra hkS
    exact Nat.find_min hex hk hkS

/- The scan started anywhere at or below the word of the first gap of S
finds exactly the word and bit position of that gap. -/
theorem scan_of_inv (S : Set Nat) (inner : Nat → Nat)
    (hbits : ∀ i j, j < 64 → (Nat.testBit (inner i) j = true ↔ 64 * i + j ∈ S))
    (M : Nat) (hM : M < 2 ^ 26) (hMmem : ∀ k, k < M → k ∈ S) (hMnot : M ∉ S)
    (start : Nat) (hstart : start ≤ M / 64) :
    scanFrom inner start (2 ^ 20) = some (M / 64, M % 64) := by
  have htgt : M / 64 < 2 ^ 20 := by omega
  have hfull : ∀ m, m < M / 64 → trailingOnes (inner m) = 64 := by
    intro m hm
    apply trailingOnesAux_of_all
    intro j hj
    exact (hbits m j hj).mpr (hMmem (64 * m + j) (by omega))
  have htr : trailingOnes (inner (M / 64)) = M % 64 := by
    apply trailingOnesAux_of_first_zero 64 (M % 64) (inner (M / 64)) (by omega)
    · intro j hj
      exact (hbits (M / 64) j (by omega)).mpr (hMmem (64 * (M / 64) + j) (by omega))
    · have hne : ¬ Nat.testBit (inner (M / 64)) (M % 64) = true := by
        intro hbit
        exact hMnot (by
          have := (hbits (M / 64) (M % 64) (by omega)).mp hbit
          have heq : 64 * (M / 64) + M % 64 = M := by omega
          rwa [heq] at this)
      simpa using hne
  have := scanFrom_finds inner (M / 64) htgt (by rw [htr]; omega) hfull
    (2 ^ 20) start hstart (by omega)
  rw [htr] at this
  exact this

/- One acknowledge call preserves the invariant, provided the index is in
capacity and some index below capacity is still unacknowledged. -/
theorem acknowledge_inv (S : Set Nat) (st : Acknowledged) (x : Nat)
    (hInv : AckInv S st) (hx : x < 2 ^ 26)
    (g : Nat) (hg : g < 2 ^ 26) (hgS : g ∉ insert x S) :
    ∃ st', Acknowledged.acknowledge st x = some st' ∧
      AckInv (insert x S) st' := by
  obtain ⟨hlt64, hbits, hpref⟩ := hInv
  obtain ⟨M, hM, hMmem, hMnot⟩ := exists_least_gap (insert x S) g hg hgS
  have hb : x / 64 < 2 ^ 20 := by omega
  set w : Nat → Nat := fun k =>
    if k = x / 64 then st.inner k ||| 2 ^ (x % 64) else st.inner k with hw
  have hsb : setBit st.inner x = some w := by rw [setBit, if_pos hb]
  have hplt : (2 : Nat) ^ (x % 64) < 2 ^ 64 :=
    lt_of_le_of_lt (Nat.pow_le_pow_right (by omega) (by omega : x % 64 ≤ 63))
      (by norm_num)
  have hwlt : ∀ i, w i < 2 ^ 64 := by
    intro i
    by_cases hk : i = x / 64
    · simp only [hw, if_pos hk]
      exact Nat.or_lt_two_pow (hlt64 i) hplt
    · simp only [hw, if_neg hk]
      exact hlt64 i
  have hwbits : ∀ i j, j < 64 →
      (Nat.testBit (w i) j = true ↔ 64 * i + j ∈ insert x S) := by
    intro i j hj
    by_cases hk : i = x / 64
    · subst hk
      simp only [hw, if_pos rfl, Nat.testBit_or, Nat.testBit_two_pow]
      constructor
      · intro hor
        rcases Bool.or_eq_true_iff.mp hor with hbit | hdec
        · exact Set.mem_insert_of_mem _ ((hbits _ j hj).mp hbit)
        · have hjx : x % 64 = j := of_decide_eq_true hdec
          have : 64 * (x / 64) + j = x := by omega
          rw [this]
          exact Set.mem_insert _ _
      · intro hmem
        rcases Set.mem_insert_iff.mp hmem with heq | hS
        · have hjx : x % 64 = j := by omega
          simp [hjx]
        · rw [(hbits _ j hj).mpr hS]
          simp
    · simp only [hw, if_neg hk]
      rw [hbits i j hj]
      constructor
      · exact fun h => Set.mem_insert_of_mem _ h
      · intro hmem
        rcases Set.mem_insert_iff.mp hmem with heq | hS
        · exfalso
          apply hk
          omega
        · exact hS
  have hMS : M ∉ S := fun h => hMnot (Set.mem_insert_of_mem _ h)
  have hhint : st.hint ≤ M / 64 := by
    have : ¬ M < 64 * st.hint := fun h => hMS (hpref M h)
    omega
  have hscan : scanFrom w st.hint (2 ^ 20) = some (M / 64, M % 64) :=
    scan_of_inv (insert x S) w hwbits M hM hMmem hMnot st.hint hhint
  refine ⟨⟨Nat.max st.hint (M / 64), w⟩, ?_, hwlt, hwbits, ?_⟩
  · rw [Acknowledged.acknowledge, hsb, Option.some_bind, hscan,
      Option.map_some']
  · intro k hk
    have hk' : k < 64 * Nat.max st.hint (M / 64) := hk
    have hmax : Nat.max st.hint (M / 64) = M / 64 := Nat.max_eq_right hhint
    exact hMmem k (by omega)

/- Folding a whole list of acknowledge calls preserves the invariant. -/
theorem foldAcks_inv (l : List Nat) :
    ∀ (S : Set Nat) (st : Acknowledged), AckInv S st →
    (∀ x ∈ l, x < 2 ^ 26) →
    ∀ g, g < 2 ^ 26 → g ∉ S → g ∉ l →
    ∃ st', List.foldlM Acknowledged.acknowledge st l = some st' ∧
      AckInv (S ∪ {y | y ∈ l}) st' := by
  induction l with
  | nil =>
    intro S st hInv _ g hg hgS hgl
    refine ⟨st, rfl, AckInv_congr S _ st (fun k => by simp) hInv⟩
  | cons a l ih =>
    intro S st hInv hl g hg hgS hgl
    have ha : a < 2 ^ 26 := hl a (List.mem_cons_self a l)
    have hgSa : g ∉ insert a S := by
      intro h
      rcases Set.mem_insert_iff.mp h with heq | h2
      · exact hgl (by rw [heq]; exact List.mem_cons_self a l)
      · exact hgS h2
    obtain ⟨st1, hack, hInv1⟩ := acknowledge_inv S st a hInv ha g hg hgSa
    obtain ⟨st', hfold, hInv'⟩ := ih (insert a S) st1 hInv1
      (fun x hx => hl x (List.mem_cons_of_mem _ hx)) g hg hgSa
      (fun h => hgl (List.mem_cons_of_mem _ h))
    refine ⟨st', ?_, ?_⟩
    · rw [List.foldlM_cons, hack]
      simpa using hfold
    · apply AckInv_congr _ _ _ ?_ hInv'
      intro k
      simp only [Set.mem_union, Set.mem_insert_iff, Set.mem_setOf_eq,
        List.mem_cons]
      tauto

/-- Claim C1: after any finite sequence of acknowledge calls on a fresh
Acknowledged (all indices below the 2^26 capacity, acknowledged prefix
below capacity), next_read()/max() returns exactly the largest M such
that every index below M occurs among the acknowledged indices and M
itself does not. -/
theorem C1_acknowledged_max (l : List Nat)
    (hx : ∀ x ∈ l, x < 2 ^ 26) (hg : ∃ g, g < 2 ^ 26 ∧ g ∉ l) :
    ∃ st M, runAcks l = some st ∧ Acknowledged.max st = some M ∧
      (∀ k, k < M → k ∈ l) ∧ M ∉ l := by
  obtain ⟨g, hg26, hgl⟩ := hg
  obtain ⟨st, hfold, hInv⟩ := foldAcks_inv l ∅ Acknowledged.new AckInv_new
    hx g hg26 (by simp) hgl
  have hInv' : AckInv {y | y ∈ l} st :=
    AckInv_congr _ _ _ (fun k => by simp) hInv
  obtain ⟨hlt64, hbits, hpref⟩ := hInv'
  obtain ⟨M, hM, hMmem, hMnot⟩ :=
    exists_least_gap {y | y ∈ l} g hg26 (by simpa using hgl)
  have hhint : st.hint ≤ M / 64 := by
    have : ¬ M < 64 * st.hint := fun h => hMnot (hpref M h)
    omega
  have hscan : scanFrom st.inner st.hint (2 ^ 20) = some (M / 64, M % 64) :=
    scan_of_inv {y | y ∈ l} st.inner hbits M hM hMmem hMnot st.hint hhint
  refine ⟨st, M, hfold, ?_, fun k hk => hMmem k hk, hMnot⟩
  rw [Acknowledged.max, Acknowledged.next, hscan, Option.map_some']
  congr 1
  omega

/-- Witness for C1: the history acknowledge(0), (1), (2), (4), (5) with
gap witness 3. -/
theorem C1_acknowledged_max_witness :
    (∀ x ∈ [0, 1, 2, 4, 5], x < 2 ^ 26) ∧
    (∃ g, g < 2 ^ 26 ∧ g ∉ [0, 1, 2, 4, 5]) ∧
    (∃ st M, runAcks [0, 1, 2, 4, 5] = some st ∧
      Acknowledged.max st = some M ∧
      (∀ k, k < M → k ∈ [0, 1, 2, 4, 5]) ∧ M ∉ [0, 1, 2, 4, 5]) :=
  ⟨by norm_num, ⟨3, by norm_num, by decide⟩,
    C1_acknowledged_max [0, 1, 2, 4, 5] (by norm_num)
      ⟨3, by norm_num, by decide⟩⟩

/- Sanity check mirroring scenario S5 of the spec: acknowledging
{0, 1, 2, 4, 5} yields next_read = 3, acknowledging 3 then yields 6. -/
theorem runAcks_scenario_S5 :
    (runAcks [0, 1, 2, 4, 5]).bind Acknowledged.max = some 3 ∧
    (runAcks [0, 1, 2, 4, 5, 3]).bind Acknowledged.max = some 6 := by
  constructor <;> rfl

/- Loader (src/lib.rs). -/
structure Loader where
  insert_order : InsertOrder
  next_key : Nat
  last_key : Nat

/- Workload::loader (src/lib.rs): insert_count = record_count / thread_count
in usize arithmetic, then insert_start = insert_count * thread_id and
last_key = insert_start + insert_count in u64 arithmetic (hence the
mod 2^64). Rust division panics for thread_count = 0; callers always pass
a positive thread count. -/
def Workload.loader (order : InsertOrder)
    (record_count thread_count thread_id : Nat) : Loader :=
  { insert_order := order,
    next_key := record_count / thread_count * thread_id % 2 ^ 64,
    last_key := (record_count / thread_count * thread_id % 2 ^ 64 +
      record_count / thread_count) % 2 ^ 64 }

/- Loader::next_key (src/lib.rs): none once the cursor reaches last_key,
otherwise the key at the cursor, advancing the cursor. The increment
cannot wrap: it only happens under next_key < last_key < 2^64. -/
def Loader.nextKey (ld : Loader) : Option Nat × Loader :=
  if ld.next_key ≥ ld.last_key then (none, ld)
  else (some (Key.new ld.insert_order ld.next_key),
    { ld with next_key := ld.next_key + 1 })

/- The loader state after k calls of next_key. -/
def Loader.stepN (ld : Loader) : Nat → Loader
  | 0 => ld
  | k + 1 => ((Loader.stepN ld k).nextKey).2

/- The key produced by the (k+1)-th call of next_key. -/
def Loader.outAt (ld : Loader) (k : Nat) : Option Nat :=
  ((Loader.stepN ld k).nextKey).1

theorem Loader.stepN_fields (ld : Loader) (hld : ld.next_key ≤ ld.last_key) :
    ∀ k, (Loader.stepN ld k).insert_order = ld.insert_order ∧
      (Loader.stepN ld k).last_key = ld.last_key ∧
      (Loader.stepN ld k).next_key =
        (if ld.next_key + k ≤ ld.last_key then ld.next_key + k
         else ld.last_key) := by
  intro k
  induction k with
  | zero =>
    refine ⟨rfl, rfl, ?_⟩
    rw [if_pos (by omega)]
    show ld.next_key = ld.next_key + 0
    omega
  | succ k ih =>
    obtain ⟨iho, ihl, ihn⟩ := ih
    have hstep : Loader.stepN ld (k + 1) = ((Loader.stepN ld k).nextKey).2 :=
      rfl
    by_cases hc : (Loader.stepN ld k).next_key ≥ (Loader.stepN ld k).last_key
    · have h2 : ((Loader.stepN ld k).nextKey).2 = Loader.stepN ld k := by
        rw [Loader.nextKey, if_pos hc]
      rw [hstep, h2]
      refine ⟨iho, ihl, ?_⟩
      rw [ihn]
      rw [ihn, ihl] at hc
      split_ifs at hc ⊢ <;> omega
    · have h2 : ((Loader.stepN ld k).nextKey).2 =
          { Loader.stepN ld k with
            next_key := (Loader.stepN ld k).next_key + 1 } := by
        rw [Loader.nextKey, if_neg hc]
      rw [hstep, h2]
      refine ⟨iho, ihl, ?_⟩
      show (Loader.stepN ld k).next_key + 1 = _
      rw [ihn]
      rw [ihn, ihl] at hc
      split_ifs at hc ⊢ <;> omega

theorem Loader.outAt_eq (ld : Loader) (hld : ld.next_key ≤ ld.last_key)
    (k : Nat) :
    Loader.outAt ld k =
      (if ld.next_key + k < ld.last_key
       then some (Key.new ld.insert_order (ld.next_key + k)) else none) := by
  obtain ⟨iho, ihl, ihn⟩ := Loader.stepN_fields ld hld k
  rw [Loader.outAt, Loader.nextKey]
  by_cases h1 : ld.next_key + k < ld.last_key
  · have hg : ¬ (Loader.stepN ld k).next_key ≥ (Loader.stepN ld k).last_key := by
      rw [ihn, ihl, if_pos (by omega)]
      omega
    rw [if_neg hg, if_pos h1, iho, ihn, if_pos (by omega)]
  · have hg : (Loader.stepN ld k).next_key ≥ (Loader.stepN ld k).last_key := by
      rw [ihn, ihl]
      split_ifs <;> omega
    rw [if_pos hg, if_neg h1]

/-- Claim C5: for thread_count T ≥ 1 and any thread id t < T, the loader
for thread t emits exactly the sequences c*t, c*t+1, ..., c*(t+1)-1 with
c = record_count / T in increasing order, then returns none forever; the
per-thread ranges are pairwise disjoint and together cover exactly the
prefix [0, c*T) of the pre-load region, leaving the division remainder
unloaded. -/
theorem C5_loader_partition (order : InsertOrder) (rc T t : Nat)
    (hT : 1 ≤ T) (ht : t < T) (hrc : rc < 2 ^ 64) :
    (∀ k, k < rc / T →
      Loader.outAt (Workload.loader order rc T t) k =
        some (Key.new order (rc / T * t + k))) ∧
    (∀ k, rc / T ≤ k →
      Loader.outAt (Workload.loader order rc T t) k = none) ∧
    rc / T * T ≤ rc ∧
    (∀ t' k k', t' < T → k < rc / T → k' < rc / T →
      rc / T * t + k = rc / T * t' + k' → t = t' ∧ k = k') ∧
    (∀ s, s < rc / T * T → ∃ u k, u < T ∧ k < rc / T ∧ s = rc / T * u + k) := by
  have hmulT : rc / T * T ≤ rc := Nat.div_mul_le_self rc T
  have hct1 : rc / T * (t + 1) ≤ rc :=
    le_trans (Nat.mul_le_mul_left (rc / T) (by omega : t + 1 ≤ T)) hmulT
  have hct : rc / T * t + rc / T ≤ rc := by
    have : rc / T * t + rc / T = rc / T * (t + 1) := by ring
    omega
  have hstart : rc / T * t % 2 ^ 64 = rc / T * t :=
    Nat.mod_eq_of_lt
      (lt_of_le_of_lt (le_trans (Nat.le_add_right _ _) hct) hrc)
  have hnext : (Workload.loader order rc T t).next_key = rc / T * t := by
    rw [Workload.loader]
    exact hstart
  have hlast : (Workload.loader order rc T t).last_key =
      rc / T * t + rc / T := by
    rw [Workload.loader]
    show (rc / T * t % 2 ^ 64 + rc / T) % 2 ^ 64 = _
    rw [hstart]
    exact Nat.mod_eq_of_lt (lt_of_le_of_lt hct hrc)
  have hord : (Workload.loader order rc T t).insert_order = order := rfl
  have hld : (Workload.loader order rc T t).next_key ≤
      (Workload.loader order rc T t).last_key := by
    rw [hnext, hlast]
    exact Nat.le_add_right _ _
  refine ⟨?_, ?_, hmulT, ?_, ?_⟩
  · intro k hk
    rw [Loader.outAt_eq _ hld k, hnext, hlast, hord,
      if_pos (Nat.add_lt_add_left hk _)]
  · intro k hk
    rw [Loader.outAt_eq _ hld k, hnext, hlast,
      if_neg (fun hcon => absurd (Nat.lt_of_add_lt_add_left hcon)
        (Nat.not_lt.mpr hk))]
  · intro t' k k' ht' hk hk' heq
    have hc : 0 < rc / T := Nat.zero_lt_of_lt hk
    have hdivt : (rc / T * t + k) / (rc / T) = t := by
      rw [Nat.mul_add_div hc, Nat.div_eq_of_lt hk]
      omega
    have hdivt' : (rc / T * t' + k') / (rc / T) = t' := by
      rw [Nat.mul_add_div hc, Nat.div_eq_of_lt hk']
      omega
    have htt : t = t' := by
      rw [← hdivt, ← hdivt', heq]
    refine ⟨htt, ?_⟩
    rw [htt] at heq
    exact Nat.add_left_cancel heq
  · intro s hs
    have hc : 0 < rc / T := by
      rcases Nat.eq_zero_or_pos (rc / T) with h0 | hpos
      · rw [h0] at hs
        simp at hs
      · exact hpos
    refine ⟨s / (rc / T), s % (rc / T), ?_, Nat.mod_lt _ hc, ?_⟩
    · rw [Nat.div_lt_iff_lt_mul hc]
      rw [Nat.mul_comm] at hs
      exact hs
    · rw [Nat.div_add_mod]

/-- Witness for C5 at record_count 4, thread_count 2, thread 0. -/
theorem C5_loader_partition_witness :
    (1 ≤ 2 ∧ 0 < 2 ∧ (4 : Nat) < 2 ^ 64) ∧
    ((∀ k, k < 4 / 2 →
      Loader.outAt (Workload.loader .Ordered 4 2 0) k =
        some (Key.new .Ordered (4 / 2 * 0 + k))) ∧
    (∀ k, 4 / 2 ≤ k →
      Loader.outAt (Workload.loader .Ordered 4 2 0) k = none) ∧
    4 / 2 * 2 ≤ 4 ∧
    (∀ t' k k', t' < 2 → k < 4 / 2 → k' < 4 / 2 →
      4 / 2 * 0 + k = 4 / 2 * t' + k' → 0 = t' ∧ k = k') ∧
    (∀ s, s < 4 / 2 * 2 → ∃ u k, u < 2 ∧ k < 4 / 2 ∧ s = 4 / 2 * u + k)) :=
  ⟨⟨by decide, by decide, by decide⟩,
    C5_loader_partition .Ordered 4 2 0 (by decide) (by decide) (by decide)⟩

/- u64 checked addition, mirroring the overflow check of the two
additions in Runner::next_key_inner (src/lib.rs). -/
def checkedAdd (a b : Nat) : Option Nat :=
  if a + b < 2 ^ 64 then some (a + b) else none

/- The upper-bound computation of Runner::next_key_inner (src/lib.rs):
record_count as u64 - 1 + acked.max() + window, evaluated left to right
in checked u64 arithmetic; record_count = 0 underflows the subtraction.
ackedMax stands for the value self.acked.max() read from the tracker. -/
def runnerMax (record_count ackedMax window : Nat) : Option Nat :=
  (checkedSub record_count 1).bind fun m =>
    (checkedAdd m ackedMax).bind fun m2 => checkedAdd m2 window

/- The sampling loop of Runner::next_key_inner (src/lib.rs): draws n is
the n-th output of self.key_chooser.next(rng), hash is the external
rapid_hash, keys_total is self.keys_total. none means the loop did not
break within fuel iterations, or keys_total = 0 so the Zipfian % panics. -/
def selectKey (dist : RequestDistribution) (maxv keys_total : Nat)
    (hash : Nat → Nat) (draws : Nat → Nat) : Nat → Nat → Option Nat
  | _, 0 => none
  | n, fuel + 1 =>
    match dist with
    | .Uniform =>
      if draws n ≤ maxv then some (draws n)
      else selectKey dist maxv keys_total hash draws (n + 1) fuel
    | .Latest =>
      match checkedSub maxv (draws n) with
      | some key => some key
      | none => selectKey dist maxv keys_total hash draws (n + 1) fuel
    | .Zipfian =>
      if keys_total = 0 then none
      else if hash (draws n) % keys_total ≤ maxv then
        some (hash (draws n) % keys_total)
      else selectKey dist maxv keys_total hash draws (n + 1) fuel

/- Runner::next_key_inner (src/lib.rs): compute the bound, run the
sampling loop, wrap the accepted sequence into a key. -/
def nextKeyInner (dist : RequestDistribution) (order : InsertOrder)
    (record_count ackedMax window keys_total : Nat) (hash : Nat → Nat)
    (draws : Nat → Nat) (fuel : Nat) : Option Nat :=
  (runnerMax record_count ackedMax window).bind fun maxv =>
    (selectKey dist maxv keys_total hash draws 0 fuel).map fun key =>
      Key.new order key

/- Runner::next_key_insert (src/lib.rs): next_key_inner with the caller
supplied window. -/
def nextKeyInsert (dist : RequestDistribution) (order : InsertOrder)
    (record_count ackedMax window keys_total : Nat) (hash : Nat → Nat)
    (draws : Nat → Nat) (fuel : Nat) : Option Nat :=
  nextKeyInner dist order record_count ackedMax window keys_total hash
    draws fuel

/- Runner::next_key_read (src/lib.rs): next_key_inner with window 0. -/
def nextKeyRead (dist : RequestDistribution) (order : InsertOrder)
    (record_count ackedMax keys_total : Nat) (hash : Nat → Nat)
    (draws : Nat → Nat) (fuel : Nat) : Option Nat :=
  nextKeyInner dist order record_count ackedMax 0 keys_total hash draws fuel

theorem checkedSub_some (a b c : Nat) (h : checkedSub a b = some c) :
    c = a - b ∧ b ≤ a := by
  rw [checkedSub] at h
  by_cases hc : a < b
  · rw [if_pos hc] at h
    exact absurd h (by simp)
  · rw [if_neg hc] at h
    exact ⟨(Option.some.inj h).symm, by omega⟩

theorem checkedAdd_some (a b c : Nat) (h : checkedAdd a b = some c) :
    c = a + b := by
  rw [checkedAdd] at h
  by_cases hc : a + b < 2 ^ 64
  · rw [if_pos hc] at h
    exact (Option.some.inj h).symm
  · rw [if_neg hc] at h
    exact absurd h (by simp)

theorem selectKey_le (dist : RequestDistribution) (maxv kt : Nat)
    (hash draws : Nat → Nat) :
    ∀ fuel n k, selectKey dist maxv kt hash draws n fuel = some k →
    k ≤ maxv := by
  intro fuel
  induction fuel with
  | zero =>
    intro n k h
    simp [selectKey] at h
  | succ f ih =>
    intro n k h
    cases dist with
    | Uniform =>
      simp only [selectKey] at h
      by_cases hc : draws n ≤ maxv
      · rw [if_pos hc] at h
        exact (Option.some.inj h) ▸ hc
      · rw [if_neg hc] at h
        exact ih (n + 1) k h
    | Latest =>
      simp only [selectKey] at h
      cases hcs : checkedSub maxv (draws n) with
      | some key =>
        rw [hcs] at h
        obtain ⟨hkey, hle⟩ := checkedSub_some maxv (draws n) key hcs
        have hk : key = k := Option.some.inj h
        omega
      | none =>
        rw [hcs] at h
        exact ih (n + 1) k h
    | Zipfian =>
      simp only [selectKey] at h
      by_cases h0 : kt = 0
      · rw [if_pos h0] at h
        exact absurd h (by simp)
      · rw [if_neg h0] at h
        by_cases hc : hash (draws n) % kt ≤ maxv
        · rw [if_pos hc] at h
          exact (Option.some.inj h) ▸ hc
        · rw [if_neg hc] at h
          exact ih (n + 1) k h

/- The returned key of next_key_inner always has its sequence at or below
record_count - 1 + acked.max() + window, for every distribution, rng
stream, and hash function. -/
theorem nextKeyInner_le (dist : RequestDistribution) (order : InsertOrder)
    (rc am window kt : Nat) (hash draws : Nat → Nat) (fuel : Nat)
    (key : Nat)
    (h : nextKeyInner dist order rc am window kt hash draws fuel =
      some key) :
    Key.sequence key ≤ rc - 1 + am + window := by
  rw [nextKeyInner] at h
  rcases Option.bind_eq_some.mp h with ⟨maxv, hmax, hsel⟩
  rcases Option.map_eq_some'.mp hsel with ⟨k0, hk0, hkey⟩
  have hle := selectKey_le dist maxv kt hash draws fuel 0 k0 hk0
  rw [runnerMax] at hmax
  rcases Option.bind_eq_some.mp hmax with ⟨m, hm, hrest⟩
  obtain ⟨hmeq, hb⟩ := checkedSub_some rc 1 m hm
  rcases Option.bind_eq_some.mp hrest with ⟨m2, hm2, hm3⟩
  have hm2' := checkedAdd_some m am m2 hm2
  have hm3' := checkedAdd_some m2 window maxv hm3
  have hseq : Key.sequence key ≤ k0 := by
    rw [← hkey]
    exact Key.sequence_new_le order k0
  omega

/-- Claim C3: for a runner with record_count ≥ 1, every key returned by
next_key_read has its sequence within [0, record_count - 1 + acked.max()]
for all three request distributions, every rng draw stream, and every
hash function; a run that does not terminate yields no key at all. -/
theorem C3_next_key_read_bound (dist : RequestDistribution)
    (order : InsertOrder) (record_count ackedMax keys_total : Nat)
    (hash draws : Nat → Nat) (fuel : Nat) (key : Nat)
    (hrc : 1 ≤ record_count)
    (h : nextKeyRead dist order record_count ackedMax keys_total hash draws
      fuel = some key) :
    Key.sequence key ≤ record_count - 1 + ackedMax := by
  have hb := nextKeyInner_le dist order record_count ackedMax 0 keys_total
    hash draws fuel key h
  omega

/-- Witness for C3 at the uniform distribution, record_count 1, fresh
tracker, constant rng stream. -/
theorem C3_next_key_read_bound_witness :
    (1 ≤ 1 ∧
      nextKeyRead .Uniform .Ordered 1 0 1 (fun n => n) (fun _ => 0) 1 =
        some 0) ∧
    Key.sequence 0 ≤ 1 - 1 + 0 :=
  ⟨⟨by decide, by decide⟩,
    C3_next_key_read_bound .Uniform .Ordered 1 0 1 (fun n => n)
      (fun _ => 0) 1 0 (by decide) (by decide)⟩

/-- Counterexample to claim C2 as stated: next_key_insert does not
reserve a fresh index from the tracker and its key's sequence can be
below record_count. With record_count 5, a fresh tracker, window 0, the
uniform distribution and an rng stream drawing 0, next_key_insert returns
the key of sequence 0 < 5 = record_count. -/
theorem C2_counterexample :
    nextKeyInsert .Uniform .Ordered 5 0 0 5 (fun n => n) (fun _ => 0) 1 =
      some (Key.new .Ordered 0) ∧
    Key.sequence (Key.new .Ordered 0) < 5 := by
  constructor <;> decide

/-- Claim C2 amended: Runner::next_key_insert(rng, window) does not
reserve an index from the tracker; it samples through next_key_inner with
the upper bound record_count - 1 + acked.max() + window, so every
returned key has its sequence at or below that bound (it may lie below
record_count, and distinct calls may repeat a sequence). -/
theorem C2_next_key_insert_amended (dist : RequestDistribution)
    (order : InsertOrder) (record_count ackedMax window keys_total : Nat)
    (hash draws : Nat → Nat) (fuel : Nat) (key : Nat)
    (hrc : 1 ≤ record_count)
    (h : nextKeyInsert dist order record_count ackedMax window keys_total
      hash draws fuel = some key) :
    Key.sequence key ≤ record_count - 1 + ackedMax + window :=
  nextKeyInner_le dist order record_count ackedMax window keys_total hash
    draws fuel key h

/-- Witness for the amended C2 at window 1, record_count 1. -/
theorem C2_next_key_insert_amended_witness :
    (1 ≤ 1 ∧
      nextKeyInsert .Uniform .Ordered 1 0 1 1 (fun n => n) (fun _ => 0) 1 =
        some 0) ∧
    Key.sequence 0 ≤ 1 - 1 + 0 + 1 :=
  ⟨⟨by decide, by decide⟩,
    C2_next_key_insert_amended .Uniform .Ordered 1 0 1 1 (fun n => n)
      (fun _ => 0) 1 0 (by decide) (by decide)⟩

/-- Claim C9: with record_count = 0 (and acked.max() = 0, window = 0) the
upper-bound computation of next_key_inner underflows the checked u64
subtraction record_count - 1, so next_key_read panics instead of
producing a bound; with record_count ≥ 1 the subtraction always
succeeds with record_count - 1. -/
theorem C9_record_count_underflow :
    (∀ dist order kt hash draws fuel,
      nextKeyRead dist order 0 0 kt hash draws fuel = none) ∧
    runnerMax 0 0 0 = none ∧
    (∀ rc, 1 ≤ rc → checkedSub rc 1 = some (rc - 1)) := by
  refine ⟨?_, rfl, ?_⟩
  · intro dist order kt hash draws fuel
    rfl
  · intro rc h
    rw [checkedSub, if_neg (by omega)]

/-- Witness for C9: a concrete read at record_count 0 panics, and the
subtraction at record_count 3 yields 2. -/
theorem C9_record_count_underflow_witness :
    nextKeyRead .Uniform .Ordered 0 0 1 (fun n => n) (fun _ => 0) 1 =
      none ∧
    (1 ≤ 3 ∧ checkedSub 3 1 = some 2) :=
  ⟨C9_record_count_underflow.1 .Uniform .Ordered 1 (fun n => n)
      (fun _ => 0) 1,
    by decide, C9_record_count_underflow.2.2 3 (by decide)⟩
